import Mathlib

/-!
A verification development for the history/config analysis core of the
k8au-shell-analyzer repository (Go).  The definitions below are shallow
embeddings of the Go functions in `internal/analyzer/shell_analysis.go`
and `internal/analyzer/analyzer.go`:

* Go strings are Lean `String`s; the few `strings`-package helpers the
  code uses (`Fields`, `HasPrefix`, `Contains`, `ContainsAny`, `TrimSpace`,
  `Trim`, `SplitN` with separator `=`) are modelled character-list-wise.
* Go maps are modelled either as association lists whose order makes the
  (otherwise nondeterministic) Go map enumeration order explicit, or as
  functions `String → Option _` when only lookup matters.
* `time.Time` values only ever flow into `.Hour()`, so a timestamp is
  modelled as its hour-of-day `Nat`.
* The side-effecting probes (`checkToolInstalled`, `getInstalledLanguages`,
  `os.UserHomeDir`, the filesystem) are injected as parameters:
  a predicate `String → Bool`, a list of installed-language names,
  an `Option String` home directory, and a function
  `String → Option (List String)` from path to file lines.
* Floating point division (`float64`) is modelled as exact division in `ℚ`.
-/

/-- Model of Go `unicode.IsSpace` on the Latin-1 range (space, TAB, LF,
VT, FF, CR, NEL U+0085, NBSP U+00A0).  The wider Unicode `Zs` classes are
not exercised by any input considered here. -/
def goIsSpace (c : Char) : Bool :=
  c = ' ' || c = '\t' || c = '\n' || c = Char.ofNat 11 || c = Char.ofNat 12 ||
  c = '\r' || c = Char.ofNat 133 || c = Char.ofNat 160

/-- `listStartsWith s pat`: `s` starts with `pat` (Go `strings.HasPrefix`
on character lists). -/
def listStartsWith : List Char → List Char → Bool
  | _, [] => true
  | [], _ :: _ => false
  | a :: s, b :: p => a == b && listStartsWith s p

/-- `containsCh s pat`: `pat` occurs as a contiguous substring of `s`
(Go `strings.Contains` on character lists; in particular the empty
pattern is contained in everything, exactly as in Go). -/
def containsCh : List Char → List Char → Bool
  | [], pat => listStartsWith [] pat
  | c :: rest, pat => listStartsWith (c :: rest) pat || containsCh rest pat

/-- Go `strings.HasPrefix`. -/
def strStartsWith (s pat : String) : Bool := listStartsWith s.toList pat.toList

/-- Go `strings.Contains`. -/
def strContains (s pat : String) : Bool := containsCh s.toList pat.toList

/-- Go `strings.ContainsAny`. -/
def strContainsAny (s chars : String) : Bool :=
  s.toList.any (fun c => chars.toList.contains c)

/-- Accumulator worker for Go `strings.Fields`: split around maximal
runs of whitespace.  `acc` holds the (reversed) current word. -/
def fieldsAux : List Char → List Char → List (List Char)
  | [], acc => if acc = [] then [] else [acc.reverse]
  | c :: rest, acc =>
    if goIsSpace c then
      if acc = [] then fieldsAux rest [] else acc.reverse :: fieldsAux rest []
    else fieldsAux rest (c :: acc)

/-- Go `strings.Fields` on character lists. -/
def fieldsCh (l : List Char) : List (List Char) := fieldsAux l []

/-- Go `strings.Fields`. -/
def fields (s : String) : List String := (fieldsCh s.toList).map (fun cs => String.mk cs)

/-- `cleanHistoryLine` (shell_analysis.go:71-77): take the last
whitespace-separated field of the raw line, or `""` for a blank line. -/
def cleanHistoryLine (line : String) : String :=
  ((fields line).getLast?).getD ""

/-- The `development` patterns of `categorizeCommand` (shell_analysis.go:82). -/
def devPatterns : List String := ["git", "docker", "npm", "go", "python"]

/-- The `system` patterns of `categorizeCommand` (shell_analysis.go:83). -/
def sysPatterns : List String := ["sudo", "systemctl", "ps", "top"]

/-- The `file` patterns of `categorizeCommand` (shell_analysis.go:84). -/
def filePatterns : List String := ["ls", "cd", "cp", "mv", "rm"]

/-- The category/pattern table of `categorizeCommand`.  The Go code holds
this in a map and iterates it in nondeterministic order; only the SET of
produced categories is determined, so we fix the declaration order. -/
def catPatterns : List (String × List String) :=
  [("development", devPatterns), ("system", sysPatterns), ("file", filePatterns)]

/-- `categorizeCommand` (shell_analysis.go:79-97): for every category,
if any of its patterns is a prefix of the command, emit the category
(the inner `break` emits each category at most once). -/
def categorizeCommand (cmd : String) : List String :=
  (catPatterns.filter (fun cp => cp.2.any (fun p => strStartsWith cmd p))).map
    (fun cp => cp.1)

/-- `CommandEntry` (analyzer.go:22-27); the timestamp is kept as its
hour-of-day, the only thing the analysis reads from it.  The unused
`Count` field is dropped. -/
structure CommandEntry where
  command : String
  hour : Nat
  categories : List String
deriving DecidableEq

/-- `readHistory` (shell_analysis.go:47-69) applied to the lines of a
history file: clean each line, drop empty results, stamp every entry with
the single "now" hour (`time.Now()` in the source). -/
def readHistory (now : Nat) (lines : List String) : List CommandEntry :=
  lines.filterMap (fun line =>
    let cmd := cleanHistoryLine line
    if cmd = "" then none
    else some { command := cmd, hour := now, categories := categorizeCommand cmd })

/-- `getPackageManager` (shell_analysis.go:213-223); a Go map lookup
returns the zero value `""` for every language not in the table. -/
def getPackageManager (lang : String) : String :=
  if lang = "python" then "pip"
  else if lang = "node" then "npm"
  else if lang = "go" then "go get"
  else if lang = "rust" then "cargo"
  else if lang = "ruby" then "gem"
  else if lang = "php" then "composer"
  else ""

/-- The development tool list of `analyzeCommands` (shell_analysis.go:124). -/
def toolsList : List String := ["git", "docker", "kubectl", "terraform", "ansible", "make"]

/-- The per-language tally `langUsage[lang]` built by `analyzeCommands`
(shell_analysis.go:116-121): one increment per entry whose command
contains the language name or its package-manager string as a substring. -/
def langUsageCount (entries : List CommandEntry) (lang : String) : Nat :=
  entries.countP (fun e =>
    strContains e.command lang || strContains e.command (getPackageManager lang))

/-- The per-tool tally `toolUsage[tool]` built by `analyzeCommands`
(shell_analysis.go:124-129): one increment per entry whose command has the
tool as a prefix, provided the tool is installed (`toolInst`). -/
def toolUsageCount (toolInst : String → Bool) (entries : List CommandEntry) (tool : String) : Nat :=
  entries.countP (fun e => strStartsWith e.command tool && toolInst tool)

/-- The `langUsage` map of `analyzeCommands` as an association list; the
Go map holds exactly the identifiers with a positive count, its
enumeration order is modelled by the order of `installed`. -/
def langUsageList (installed : List String) (entries : List CommandEntry) :
    List (String × Nat) :=
  (installed.map (fun l => (l, langUsageCount entries l))).filter
    (fun p => decide (0 < p.2))

/-- `getMostUsed` (shell_analysis.go:241-251) over an association list in
the (otherwise nondeterministic) enumeration order of the Go map: the
first key whose count strictly exceeds all earlier maxima wins; `none`
when no count is positive. -/
def getMostUsed (usage : List (String × Nat)) : Option String :=
  let best := usage.foldl (fun b kv => if b.2 < kv.2 then kv else b) ("", 0)
  if 0 < best.2 then some best.1 else none

/-- Go `strings.Title` on the single-word identifiers it is applied to:
upper-case the first character. -/
def strTitle (s : String) : String :=
  match s.toList with
  | [] => ""
  | c :: r => String.mk (c.toUpper :: r)

/-- The `PrimaryRole` computation of `analyzeCommands`
(shell_analysis.go:139-141): `"<Titled lang> Developer"` for the most
used language, unset when no language has a positive count. -/
def primaryRole (installed : List String) (entries : List CommandEntry) : Option String :=
  (getMostUsed (langUsageList installed entries)).map
    (fun l => strTitle l ++ " Developer")

/-- The proficiency map written by `analyzeCommands`
(shell_analysis.go:151-160), as a lookup function: nothing when the shell
history is empty (`totalCommands = 0` guard); otherwise the language
scores are written first and the tool scores second, so for an identifier
present in both tallies the tool score wins. -/
def proficiencyMap (installed : List String) (toolInst : String → Bool)
    (entries : List CommandEntry) : String → Option ℚ := fun id =>
  if entries.length = 0 then none
  else if id ∈ toolsList ∧ 0 < toolUsageCount toolInst entries id then
    some ((toolUsageCount toolInst entries id : ℚ) / (entries.length : ℚ))
  else if id ∈ installed ∧ 0 < langUsageCount entries id then
    some ((langUsageCount entries id : ℚ) / (entries.length : ℚ))
  else none

/-- The `git_workflow` regex of `analyzeCommandPattern`
(shell_analysis.go:228): unanchored `git (commit|push|pull|merge)`. -/
def matchGitWorkflow (cmd : String) : Bool :=
  strContains cmd "git commit" || strContains cmd "git push" ||
  strContains cmd "git pull" || strContains cmd "git merge"

/-- The `build` regex of `analyzeCommandPattern` (shell_analysis.go:229). -/
def matchBuild (cmd : String) : Bool :=
  strContains cmd "make" || strContains cmd "build" || strContains cmd "compile"

/-- The `deploy` regex of `analyzeCommandPattern` (shell_analysis.go:230). -/
def matchDeploy (cmd : String) : Bool :=
  strContains cmd "deploy" || strContains cmd "kubectl" || strContains cmd "docker"

/-- The `test` regex of `analyzeCommandPattern` (shell_analysis.go:231). -/
def matchTest (cmd : String) : Bool :=
  strContains cmd "test" || strContains cmd "spec" || strContains cmd "pytest"

/-- `patterns[p]` after folding `analyzeCommandPattern` over all entries:
the number of entries whose command matches pattern `m`. -/
def patternCount (entries : List CommandEntry) (m : String → Bool) : Nat :=
  entries.countP (fun e => m e.command)

/-- The `uniqueCommands` set size of `calculateProductivityMetrics`
(shell_analysis.go:285-288): number of distinct command texts. -/
def distinctCommandCount (entries : List CommandEntry) : Nat :=
  ((entries.map (fun e => e.command)).dedup).length

/-- `calculateProductivityMetrics` (shell_analysis.go:276-297); `float64`
division is modelled exactly in `ℚ`.  The `patterns` argument of the Go
function is the fold of `analyzeCommandPattern` over the same entries
(shell_analysis.go:131-132), inlined here via `patternCount`. -/
def calculateProductivityMetrics (entries : List CommandEntry) : List (String × ℚ) :=
  if entries.length = 0 then []
  else
    [("Command Variety", (distinctCommandCount entries : ℚ) / (entries.length : ℚ)),
     ("Workflow Complexity",
       ((patternCount entries matchGitWorkflow + patternCount entries matchBuild +
         patternCount entries matchDeploy + patternCount entries matchTest : ℕ) : ℚ) /
         (entries.length : ℚ))]

/-- The comparator of `getPeakHours` (shell_analysis.go:264-266):
`hours[i].count > hours[j].count`, i.e. `a` may precede `b` iff
`b.count ≤ a.count`. -/
def cntGe (a b : Nat × Nat) : Prop := b.2 ≤ a.2

instance : DecidableRel cntGe := fun a b => Nat.decLe b.2 a.2

instance : IsTotal (Nat × Nat) cntGe := ⟨fun a b => Nat.le_total b.2 a.2⟩

instance : IsTrans (Nat × Nat) cntGe := ⟨fun _ _ _ hab hbc => le_trans hbc hab⟩

/-- `getPeakHours` (shell_analysis.go:253-274) over the `timeOfDay`
buckets written out in the (nondeterministic) enumeration order of the Go
map: sort by count descending — Go's `sort.Slice` gives no guarantee on
ties, modelled by a sort that keeps the enumeration order there — and
keep the first three hours. -/
def getPeakHours (buckets : List (Nat × Nat)) : List Nat :=
  ((List.insertionSort cntGe buckets).take 3).map (fun p => p.1)

/-- The `timeOfDay` bucket count for one hour (shell_analysis.go:112-113). -/
def hourBucketCount (entries : List CommandEntry) (h : Nat) : Nat :=
  entries.countP (fun e => e.hour = h)

/-- `types.TimelineEntry` (internal/types/types.go), timestamp as hour. -/
structure TimelineEntry where
  hour : Nat
  command : String
  shell : String
deriving DecidableEq

/-- The allowlist of `isInterestingCommand` (analyzer.go:182). -/
def interestingCommands : List String :=
  ["git", "docker", "kubectl", "terraform", "ansible", "make", "npm", "go",
   "python", "java", "ssh", "scp", "curl", "wget", "vim", "nvim", "emacs", "code"]

/-- `isTypoCommand` (analyzer.go:201-209). -/
def isTypoCommand (cmd : String) : Bool :=
  ["sl", "cd..", "pythoon", "gti", "vmi", "nivm", "emasc", "clea", "exot"].contains cmd

/-- `isInterestingCommand` (analyzer.go:180-198). -/
def isInterestingCommand (cmd : String) : Bool :=
  interestingCommands.any (fun p => strStartsWith cmd p) ||
  strContainsAny cmd "|><&;" || isTypoCommand cmd

/-- The inner loop of `GenerateTimelineData` (analyzer.go:153-173) over
one shell's history.  `acc` is the timeline built so far, `seen` the
`uniqueCommands` set; the returned flag records the early `return` taken
as soon as 15 entries have been collected. -/
def timelineInner (sh : String) :
    List CommandEntry → List TimelineEntry → List String →
    List TimelineEntry × List String × Bool
  | [], acc, seen => (acc, seen, false)
  | e :: rest, acc, seen =>
    if e.command ∈ seen then timelineInner sh rest acc seen
    else
      let step :=
        if isInterestingCommand e.command then
          (acc ++ [{ hour := e.hour, command := e.command, shell := sh }],
           e.command :: seen)
        else (acc, seen)
      if 15 ≤ step.1.length then (step.1, step.2, true)
      else timelineInner sh rest step.1 step.2

/-- The outer loop of `GenerateTimelineData` over the shells, in the
(nondeterministic) enumeration order of `data.Histories`, made explicit
as the list order. -/
def timelineOuter : List (String × List CommandEntry) → List TimelineEntry →
    List String → List TimelineEntry
  | [], acc, _ => acc
  | (sh, hist) :: rest, acc, seen =>
    let r := timelineInner sh hist acc seen
    if r.2.2 then r.1 else timelineOuter rest r.1 r.2.1

/-- `GenerateTimelineData` (analyzer.go:145-177). -/
def GenerateTimelineData (shells : List (String × List CommandEntry)) : List TimelineEntry :=
  timelineOuter shells [] []

/-- Split at the first `=` (Go `strings.SplitN(s, "=", 2)`; `none` models
the length-1 result when no `=` occurs, which the parser skips). -/
def splitAtFirstEq : List Char → Option (List Char × List Char)
  | [] => none
  | c :: rest =>
    if c = '=' then some ([], rest)
    else
      match splitAtFirstEq rest with
      | none => none
      | some (a, b) => some (c :: a, b)

/-- Drop characters satisfying `p` from both ends (Go `strings.Trim` /
`strings.TrimSpace` with the respective cutsets). -/
def trimBoth (p : Char → Bool) (cs : List Char) : List Char :=
  ((cs.dropWhile p).reverse.dropWhile p).reverse

/-- The quote cutset `'"` of the alias/export value trimming
(shell_analysis.go:489). -/
def isQuoteCh (c : Char) : Bool := c = '\'' || c = '"'

/-- The alias branch of `parseShellConfig` (shell_analysis.go:485-492) on
one line: `alias name=value` with the name trimmed of whitespace and the
value trimmed of whitespace and then of quote characters. -/
def parseAliasLine (line : String) : Option (String × String) :=
  if strStartsWith line "alias " then
    match splitAtFirstEq (line.toList.drop 6) with
    | none => none
    | some (k, v) =>
      some (String.mk (trimBoth goIsSpace k),
            String.mk (trimBoth isQuoteCh (trimBoth goIsSpace v)))
  else none

/-- Overwriting insertion into a Go map modelled as a lookup function. -/
def mapSet (m : String → Option String) (k v : String) : String → Option String :=
  fun x => if x = k then some v else m x

/-- One scanner step of `parseShellConfig` on the alias map. -/
def applyAliasLine (m : String → Option String) (line : String) : String → Option String :=
  match parseAliasLine line with
  | some kv => mapSet m kv.1 kv.2
  | none => m

/-- The alias-map part of `parseShellConfig` (shell_analysis.go:479-504):
scan the lines in order, starting from the alias map accumulated so far
(`m0`; config files of one shell share the map, so duplicates across
files also last-write-win). -/
def parseShellConfig (lines : List String) (m0 : String → Option String) :
    String → Option String :=
  lines.foldl applyAliasLine m0

/-- The value of the last declaration for `key` in a list of parsed
`(name, value)` pairs. -/
def lastVal : List (String × String) → String → Option String
  | [], _ => none
  | kv :: rest, key =>
    match lastVal rest key with
    | some w => some w
    | none => if kv.1 = key then some kv.2 else none

/-- Characters dropped from the front of a string (used for `path[2:]`). -/
def stringDropN (s : String) (n : Nat) : String := String.mk (s.toList.drop n)

/-- `expandPath` (shell_analysis.go:420-429) with the result of
`os.UserHomeDir` injected: when the home directory cannot be resolved the
path is returned unchanged; `filepath.Join(home, rest)` is modelled as
`home ++ "/" ++ rest`. -/
def expandPath (home : Option String) (path : String) : String :=
  if strStartsWith path "~/" then
    match home with
    | none => path
    | some h => h ++ "/" ++ stringDropN path 2
  else path

/-- The `shellPaths` table of `AnalyzeShells` (shell_analysis.go:22-26);
the Go map's enumeration order is fixed to declaration order. -/
def shellPaths : List (String × String) :=
  [("bash", "~/.bash_history"), ("zsh", "~/.zsh_history"),
   ("fish", "~/.local/share/fish/fish_history")]

/-- The history-collection part of `AnalyzeShells` (shell_analysis.go:28-35)
with the filesystem injected as `fs` (path to file lines, `none` when the
open fails): a shell whose history cannot be read is silently skipped. -/
def analyzeShellsHistories (now : Nat) (home : Option String)
    (fs : String → Option (List String)) : List (String × List CommandEntry) :=
  shellPaths.filterMap (fun sp =>
    match fs (expandPath home sp.2) with
    | some lines => some (sp.1, readHistory now lines)
    | none => none)

/-- The 20-line history of the productivity scenario: five distinct
single-token commands, each four times. -/
def scenarioLines : List String :=
  ["git", "docker", "npm", "ls", "cd", "git", "docker", "npm", "ls", "cd",
   "git", "docker", "npm", "ls", "cd", "git", "docker", "npm", "ls", "cd"]

/-! ## Helper lemmas -/

theorem mem_of_getLastOpt {α : Type} : ∀ (l : List α) (a : α), l.getLast? = some a → a ∈ l
  | [], a, h => by simp [List.getLast?] at h
  | [x], a, h => by
    simp [List.getLast?] at h
    simp [h]
  | x :: y :: t, a, h => by
    have : (y :: t).getLast? = some a := by
      simpa [List.getLast?] using h
    exact List.mem_cons_of_mem x (mem_of_getLastOpt (y :: t) a this)

theorem fieldsAux_mem : ∀ (l acc : List Char),
    (∀ c ∈ acc, goIsSpace c = false) →
    ∀ w ∈ fieldsAux l acc, w ≠ [] ∧ ∀ c ∈ w, goIsSpace c = false := by
  intro l
  induction l with
  | nil =>
    intro acc hacc w hw
    by_cases h : acc = []
    · simp [fieldsAux, h] at hw
    · simp [fieldsAux, h] at hw
      subst hw
      refine ⟨by simpa using h, ?_⟩
      intro c hc
      exact hacc c (List.mem_reverse.mp hc)
  | cons c rest ih =>
    intro acc hacc w hw
    by_cases hsp : goIsSpace c
    · by_cases h : acc = []
      · simp [fieldsAux, hsp, h] at hw
        exact ih [] (by simp) w hw
      · simp [fieldsAux, hsp, h] at hw
        rcases hw with hw | hw
        · subst hw
          refine ⟨by simpa using h, ?_⟩
          intro d hd
          exact hacc d (List.mem_reverse.mp hd)
        · exact ih [] (by simp) w hw
    · simp [fieldsAux, hsp] at hw
      refine ih (c :: acc) ?_ w hw
      intro d hd
      rcases List.mem_cons.mp hd with h | h
      · subst h; simpa using hsp
      · exact hacc d h

theorem fieldsAux_no_space : ∀ (l acc : List Char),
    (∀ c ∈ l, goIsSpace c = false) → (acc ≠ [] ∨ l ≠ []) →
    fieldsAux l acc = [acc.reverse ++ l] := by
  intro l
  induction l with
  | nil =>
    intro acc _ hne
    rcases hne with h | h
    · simp [fieldsAux, h]
    · simp at h
  | cons c rest ih =>
    intro acc hl _
    have hc : goIsSpace c = false := hl c (List.mem_cons_self c rest)
    simp only [fieldsAux, hc, Bool.false_eq_true, if_false]
    rw [ih (c :: acc) (fun d hd => hl d (List.mem_cons_of_mem c hd)) (Or.inl (by simp))]
    simp

theorem mem_of_listStartsWith : ∀ (s pat : List Char),
    listStartsWith s pat = true → ∀ c ∈ pat, c ∈ s := by
  intro s
  induction s with
  | nil =>
    intro pat h c hc
    cases pat with
    | nil => simp at hc
    | cons a t => simp [listStartsWith] at h
  | cons a t ih =>
    intro pat h c hc
    cases pat with
    | nil => simp at hc
    | cons b u =>
      simp [listStartsWith] at h
      rcases List.mem_cons.mp hc with h1 | h1
      · subst h1
        simp [h.1]
      · exact List.mem_cons_of_mem a (ih u h.2 c h1)

theorem mem_of_containsCh : ∀ (s pat : List Char),
    containsCh s pat = true → ∀ c ∈ pat, c ∈ s := by
  intro s
  induction s with
  | nil =>
    intro pat h c hc
    exact mem_of_listStartsWith [] pat (by simpa [containsCh] using h) c hc
  | cons a t ih =>
    intro pat h c hc
    simp only [containsCh, Bool.or_eq_true] at h
    rcases h with h | h
    · exact mem_of_listStartsWith (a :: t) pat h c hc
    · exact List.mem_cons_of_mem a (ih pat h c hc)

theorem cleanHistoryLine_cases (line : String) :
    cleanHistoryLine line = "" ∨
    (cleanHistoryLine line ≠ "" ∧
      ∀ c ∈ (cleanHistoryLine line).toList, goIsSpace c = false) := by
  unfold cleanHistoryLine
  cases h : (fields line).getLast? with
  | none => left; simp
  | some s =>
    right
    have hs : s ∈ fields line := mem_of_getLastOpt _ _ h
    simp only [fields, List.mem_map, fieldsCh] at hs
    obtain ⟨w, hw, hws⟩ := hs
    have hprop := fieldsAux_mem line.toList [] (by simp) w hw
    have htl : s.toList = w := by subst hws; rfl
    constructor
    · intro hempty
      simp only [Option.getD_some] at hempty
      apply hprop.1
      rw [← htl, hempty]
      rfl
    · intro c hc
      simp only [Option.getD_some] at hc
      exact hprop.2 c (htl ▸ hc)

theorem mk_toList (s : String) : String.mk s.toList = s := by cases s; rfl

theorem fields_single (s : String) (hne : s ≠ "")
    (hns : ∀ c ∈ s.toList, goIsSpace c = false) : fields s = [s] := by
  have hl : s.toList ≠ [] := by
    intro h
    apply hne
    cases s with
    | mk data =>
      have : data = [] := h
      subst this
      rfl
  unfold fields fieldsCh
  rw [fieldsAux_no_space s.toList [] hns (Or.inr hl)]
  simp [mk_toList]

theorem strContains_space_false (s pat : String) (hsp : ' ' ∈ pat.toList)
    (hns : ∀ c ∈ s.toList, goIsSpace c = false) : strContains s pat = false := by
  by_contra hcon
  have htrue : strContains s pat = true := by
    cases h : strContains s pat with
    | false => exact absurd h hcon
    | true => rfl
  have hmem : ' ' ∈ s.toList := mem_of_containsCh s.toList pat.toList htrue ' ' hsp
  have := hns ' ' hmem
  simp [goIsSpace] at this

theorem matchGitWorkflow_clean_false (line : String) :
    matchGitWorkflow (cleanHistoryLine line) = false := by
  rcases cleanHistoryLine_cases line with h | ⟨_, hns⟩
  · rw [h]; rfl
  · unfold matchGitWorkflow
    rw [strContains_space_false _ "git commit" (by decide) hns,
      strContains_space_false _ "git push" (by decide) hns,
      strContains_space_false _ "git pull" (by decide) hns,
      strContains_space_false _ "git merge" (by decide) hns]
    rfl

theorem sorted_perm_nodup_snd_eq :
    ∀ (l1 l2 : List (Nat × Nat)), l1.Sorted cntGe → l2.Sorted cntGe →
      List.Perm l1 l2 → (l1.map (fun p => p.2)).Nodup → l1 = l2 := by
  intro l1
  induction l1 with
  | nil =>
    intro l2 _ _ hp _
    exact (List.Perm.nil_eq hp).symm ▸ rfl
  | cons a t1 ih =>
    intro l2 hs1 hs2 hp hnd
    cases l2 with
    | nil => exact absurd (List.Perm.eq_nil hp) (by simp)
    | cons b t2 =>
      by_cases hab : a = b
      · subst hab
        have hperm : List.Perm t1 t2 := List.Perm.cons_inv hp
        have := ih t2 (List.Pairwise.of_cons hs1) (List.Pairwise.of_cons hs2) hperm
          (by simpa using (List.nodup_cons.mp (by simpa using hnd)).2)
        rw [this]
      · exfalso
        have hb1 : b ∈ a :: t1 := hp.symm.subset (List.mem_cons_self b t2)
        have ha2 : a ∈ b :: t2 := hp.subset (List.mem_cons_self a t1)
        have hbt1 : b ∈ t1 := by
          rcases List.mem_cons.mp hb1 with h | h
          · exact absurd h.symm hab
          · exact h
        have hat2 : a ∈ t2 := by
          rcases List.mem_cons.mp ha2 with h | h
          · exact absurd h hab
          · exact h
        have h1 : cntGe a b := List.rel_of_sorted_cons hs1 b hbt1
        have h2 : cntGe b a := List.rel_of_sorted_cons hs2 a hat2
        have heq : a.2 = b.2 := le_antisymm h2 h1
        have hnotin : a.2 ∉ t1.map (fun p => p.2) :=
          (List.nodup_cons.mp (by simpa using hnd)).1
        exact hnotin (heq ▸ List.mem_map_of_mem (fun p => p.2) hbt1)

theorem timelineInner_cons_seen {sh : String} {e : CommandEntry}
    {rest : List CommandEntry} {acc : List TimelineEntry} {seen : List String}
    (h : e.command ∈ seen) :
    timelineInner sh (e :: rest) acc seen = timelineInner sh rest acc seen := by
  simp [timelineInner, h]

theorem timelineInner_cons_int {sh : String} {e : CommandEntry}
    {rest : List CommandEntry} {acc : List TimelineEntry} {seen : List String}
    (h1 : e.command ∉ seen) (h2 : isInterestingCommand e.command = true) :
    timelineInner sh (e :: rest) acc seen =
      if 15 ≤ acc.length + 1 then
        (acc ++ [(⟨e.hour, e.command, sh⟩ : TimelineEntry)], e.command :: seen, true)
      else timelineInner sh rest (acc ++ [(⟨e.hour, e.command, sh⟩ : TimelineEntry)])
        (e.command :: seen) := by
  simp [timelineInner, h1, h2]

theorem timelineInner_cons_not {sh : String} {e : CommandEntry}
    {rest : List CommandEntry} {acc : List TimelineEntry} {seen : List String}
    (h1 : e.command ∉ seen) (h2 : isInterestingCommand e.command = false)
    (h3 : acc.length < 15) :
    timelineInner sh (e :: rest) acc seen = timelineInner sh rest acc seen := by
  simp [timelineInner, h1, h2, Nat.not_le_of_lt h3]

theorem timelineInner_inv (sh : String) :
    ∀ (hist : List CommandEntry) (acc : List TimelineEntry) (seen : List String),
      acc.length < 15 →
      (acc.map (fun te => te.command)).Nodup →
      (∀ c ∈ acc.map (fun te => te.command), c ∈ seen) →
      (timelineInner sh hist acc seen).1.length ≤ 15 ∧
      ((timelineInner sh hist acc seen).1.map (fun te => te.command)).Nodup ∧
      (∀ c ∈ (timelineInner sh hist acc seen).1.map (fun te => te.command),
        c ∈ (timelineInner sh hist acc seen).2.1) ∧
      ((timelineInner sh hist acc seen).2.2 = false →
        (timelineInner sh hist acc seen).1.length < 15) := by
  intro hist
  induction hist with
  | nil =>
    intro acc seen hlen hnd hsub
    exact ⟨le_of_lt hlen, hnd, hsub, fun _ => hlen⟩
  | cons e rest ih =>
    intro acc seen hlen hnd hsub
    by_cases hseen : e.command ∈ seen
    · rw [timelineInner_cons_seen hseen]
      exact ih acc seen hlen hnd hsub
    · cases hint : isInterestingCommand e.command with
      | false =>
        rw [timelineInner_cons_not hseen hint hlen]
        exact ih acc seen hlen hnd hsub
      | true =>
        have hnotacc : e.command ∉ acc.map (fun te => te.command) :=
          fun h => hseen (hsub _ h)
        have hnd2 : ((acc ++ [(⟨e.hour, e.command, sh⟩ : TimelineEntry)]).map
            (fun te => te.command)).Nodup := by
          simp only [List.map_append, List.map_cons, List.map_nil]
          rw [List.nodup_append]
          exact ⟨hnd, List.nodup_singleton _, by simpa using hnotacc⟩
        have hsub2 : ∀ c ∈ ((acc ++ [(⟨e.hour, e.command, sh⟩ : TimelineEntry)]).map
            (fun te => te.command)), c ∈ e.command :: seen := by
          intro c hc
          simp only [List.map_append, List.map_cons, List.map_nil,
            List.mem_append, List.mem_cons, List.not_mem_nil, or_false] at hc
          rcases hc with hc | hc
          · exact List.mem_cons_of_mem _ (hsub c hc)
          · simp [hc]
        rw [timelineInner_cons_int hseen hint]
        by_cases hfull : 15 ≤ acc.length + 1
        · rw [if_pos hfull]
          refine ⟨by simp; omega, hnd2, hsub2, by simp⟩
        · rw [if_neg hfull]
          have := ih (acc ++ [(⟨e.hour, e.command, sh⟩ : TimelineEntry)])
            (e.command :: seen) (by simp; omega) hnd2 hsub2
          exact this

theorem timelineOuter_inv :
    ∀ (shells : List (String × List CommandEntry)) (acc : List TimelineEntry)
      (seen : List String),
      acc.length < 15 →
      (acc.map (fun te => te.command)).Nodup →
      (∀ c ∈ acc.map (fun te => te.command), c ∈ seen) →
      (timelineOuter shells acc seen).length ≤ 15 ∧
      ((timelineOuter shells acc seen).map (fun te => te.command)).Nodup := by
  intro shells
  induction shells with
  | nil =>
    intro acc seen hlen hnd _
    exact ⟨le_of_lt hlen, hnd⟩
  | cons p rest ih =>
    intro acc seen hlen hnd hsub
    obtain ⟨sh, hist⟩ := p
    have h := timelineInner_inv sh hist acc seen hlen hnd hsub
    cases hflag : (timelineInner sh hist acc seen).2.2 with
    | true =>
      have heq : timelineOuter ((sh, hist) :: rest) acc seen =
          (timelineInner sh hist acc seen).1 := by
        simp [timelineOuter, hflag]
      rw [heq]
      exact ⟨h.1, h.2.1⟩
    | false =>
      have heq : timelineOuter ((sh, hist) :: rest) acc seen =
          timelineOuter rest (timelineInner sh hist acc seen).1
            (timelineInner sh hist acc seen).2.1 := by
        simp [timelineOuter, hflag]
      rw [heq]
      exact ih _ _ (h.2.2.2 hflag) h.2.1 h.2.2.1

theorem parseShellConfig_lastVal :
    ∀ (lines : List String) (m0 : String → Option String) (k : String),
      parseShellConfig lines m0 k =
        (lastVal (lines.filterMap parseAliasLine) k).or (m0 k) := by
  intro lines
  induction lines with
  | nil => intro m0 k; rfl
  | cons line rest ih =>
    intro m0 k
    show parseShellConfig rest (applyAliasLine m0 line) k = _
    rw [ih]
    cases hpl : parseAliasLine line with
    | none =>
      simp [applyAliasLine, hpl, List.filterMap_cons]
    | some kv =>
      simp only [List.filterMap_cons, hpl]
      cases hlv : lastVal (rest.filterMap parseAliasLine) k with
      | some w => simp [lastVal, hlv]
      | none =>
        simp only [lastVal, hlv, applyAliasLine, hpl, mapSet, Option.or]
        by_cases hk : kv.1 = k
        · simp [hk]
        · simp [if_neg hk, if_neg (show ¬k = kv.1 from fun h => hk h.symm)]

/-! ## Claim theorems -/

/-- C1: the spec scenario expects the history lines `git commit -m "x"`,
`git commit -m "y"`, `ls -la` (with `git` installed) to tally `git: 2` and
set the primary role to "Git Developer".  Evaluating the code at this
input shows the divergence: `cleanHistoryLine` keeps only the LAST
whitespace field of each line, so the stored commands are `"x"`, `"y"`,
`-la`; the prefix-based tool tally for `git` is 0 and the substring-based
language tally is 3 (the package-manager string of `git` is empty and an
empty substring matches every command) — never 2.  The role happens to be
"Git Developer" here only because `git` is the sole installed language in
this run.  The last conjunct shows the code contradicts itself: the
`git_workflow` regex of `analyzeCommandPattern` can never match any
cleaned command, since cleaned commands contain no whitespace. -/
theorem c1_scenario_evaluation :
    ((readHistory 7 ["git commit -m \"x\"", "git commit -m \"y\"", "ls -la"]).map
      (fun e => e.command) = ["\"x\"", "\"y\"", "-la"]) ∧
    toolUsageCount (fun t => t == "git")
      (readHistory 7 ["git commit -m \"x\"", "git commit -m \"y\"", "ls -la"]) "git" = 0 ∧
    langUsageCount
      (readHistory 7 ["git commit -m \"x\"", "git commit -m \"y\"", "ls -la"]) "git" = 3 ∧
    primaryRole ["git"]
      (readHistory 7 ["git commit -m \"x\"", "git commit -m \"y\"", "ls -la"]) =
      some "Git Developer" ∧
    (∀ line : String, matchGitWorkflow (cleanHistoryLine line) = false) :=
  ⟨by decide, by decide, by decide, by decide, matchGitWorkflow_clean_false⟩

/-- C2: an empty shell history produces no proficiency entries, and every
assigned proficiency score equals the identifier's usage count divided by
the number of commands in the shell history, with the count bounded by
that total, so every score lies in [0, 1]. -/
theorem c2_proficiency_bounds :
    (∀ (installed : List String) (toolInst : String → Bool) (id : String),
      proficiencyMap installed toolInst [] id = none) ∧
    (∀ (installed : List String) (toolInst : String → Bool)
      (entries : List CommandEntry) (id : String) (q : ℚ),
      proficiencyMap installed toolInst entries id = some q →
      (0 ≤ q ∧ q ≤ 1) ∧
      (q = (toolUsageCount toolInst entries id : ℚ) / (entries.length : ℚ) ∨
       q = (langUsageCount entries id : ℚ) / (entries.length : ℚ)) ∧
      toolUsageCount toolInst entries id ≤ entries.length ∧
      langUsageCount entries id ≤ entries.length) := by
  constructor
  · intro installed toolInst id
    rfl
  · intro installed toolInst entries id q h
    have hle1 : toolUsageCount toolInst entries id ≤ entries.length :=
      List.countP_le_length _
    have hle2 : langUsageCount entries id ≤ entries.length :=
      List.countP_le_length _
    unfold proficiencyMap at h
    by_cases h0 : entries.length = 0
    · rw [if_pos h0] at h
      exact absurd h (by simp)
    · rw [if_neg h0] at h
      have hpos : (0:ℚ) < (entries.length : ℚ) :=
        Nat.cast_pos.mpr (Nat.pos_of_ne_zero h0)
      by_cases ht : id ∈ toolsList ∧ 0 < toolUsageCount toolInst entries id
      · rw [if_pos ht] at h
        have hq := Option.some_inj.mp h
        subst hq
        refine ⟨⟨div_nonneg (Nat.cast_nonneg _) (le_of_lt hpos), ?_⟩,
          Or.inl rfl, hle1, hle2⟩
        exact (div_le_one hpos).mpr (Nat.cast_le.mpr hle1)
      · rw [if_neg ht] at h
        by_cases hl : id ∈ installed ∧ 0 < langUsageCount entries id
        · rw [if_pos hl] at h
          have hq := Option.some_inj.mp h
          subst hq
          refine ⟨⟨div_nonneg (Nat.cast_nonneg _) (le_of_lt hpos), ?_⟩,
            Or.inr rfl, hle1, hle2⟩
          exact (div_le_one hpos).mpr (Nat.cast_le.mpr hle2)
        · rw [if_neg hl] at h
          exact absurd h (by simp)

/-- Witness for C2 at a concrete input: the shell history read from
`["git status", "ls"]` with only `git` installed gives `git` a
proficiency of 1, inside the stated bounds. -/
theorem c2_witness :
    (0 ≤ (1:ℚ) ∧ (1:ℚ) ≤ 1) ∧
    ((1:ℚ) = (toolUsageCount (fun t => t == "git")
        (readHistory 0 ["git status", "ls"]) "git" : ℚ) /
        ((readHistory 0 ["git status", "ls"]).length : ℚ) ∨
     (1:ℚ) = (langUsageCount (readHistory 0 ["git status", "ls"]) "git" : ℚ) /
        ((readHistory 0 ["git status", "ls"]).length : ℚ)) ∧
    toolUsageCount (fun t => t == "git") (readHistory 0 ["git status", "ls"]) "git" ≤
      (readHistory 0 ["git status", "ls"]).length ∧
    langUsageCount (readHistory 0 ["git status", "ls"]) "git" ≤
      (readHistory 0 ["git status", "ls"]).length :=
  c2_proficiency_bounds.2 ["git"] (fun t => t == "git")
    (readHistory 0 ["git status", "ls"]) "git" 1 (by
      rw [proficiencyMap]
      rw [show (readHistory 0 ["git status", "ls"]).length = 2 from by decide]
      rw [show langUsageCount (readHistory 0 ["git status", "ls"]) "git" = 2 from by decide]
      rw [show toolUsageCount (fun t => t == "git")
        (readHistory 0 ["git status", "ls"]) "git" = 0 from by decide]
      norm_num)

/-- C3: the Timeline Curator returns at most 15 entries and no two
entries with the same command text, over every shell enumeration; the
closed conjunct shows first-occurrence-wins on a duplicate command text
appearing in two different shells. -/
theorem c3_timeline_bounded_nodup :
    (∀ shells : List (String × List CommandEntry),
      (GenerateTimelineData shells).length ≤ 15 ∧
      ((GenerateTimelineData shells).map (fun te => te.command)).Nodup) ∧
    GenerateTimelineData
      [("bash", [(⟨"git status", 1, []⟩ : CommandEntry)]),
       ("zsh", [(⟨"git status", 2, []⟩ : CommandEntry)])] =
      [(⟨1, "git status", "bash"⟩ : TimelineEntry)] := by
  constructor
  · intro shells
    exact timelineOuter_inv shells [] [] (by simp) (by simp) (by simp)
  · decide

/-- C4 counterexample: the claim says that on equal bucket counts the
lower hour comes first.  The Go code sorts the nondeterministic
map-enumeration of the buckets with a comparator on counts only; for the
enumeration order `[(5,1),(3,1)]` of the bucket map {3 ↦ 1, 5 ↦ 1} the
result is `[5,3]`, with hour 5 before the lower tied hour 3. -/
theorem c4_counterexample :
    getPeakHours [(5,1),(3,1)] = [5,3] ∧ getPeakHours [(5,1),(3,1)] ≠ [3,5] :=
  ⟨by decide, by decide⟩

/-- C4 amended: `getPeakHours` returns the hours of the first three
buckets of a count-descending rearrangement of the buckets (fewer when
there are fewer buckets); ties keep the nondeterministic enumeration
order, not the lower-hour order. -/
theorem c4_amended_top3_by_count :
    ∀ buckets : List (Nat × Nat),
      ∃ l : List (Nat × Nat), List.Perm l buckets ∧ l.Sorted cntGe ∧
        getPeakHours buckets = (l.take 3).map (fun p => p.1) ∧
        (getPeakHours buckets).length = min 3 buckets.length := by
  intro buckets
  refine ⟨List.insertionSort cntGe buckets, List.perm_insertionSort cntGe buckets,
    List.sorted_insertionSort cntGe buckets, rfl, ?_⟩
  simp [getPeakHours, List.length_take, List.length_insertionSort]

/-- C6 counterexample: two runs that enumerate the identical bucket map
{3 ↦ 1, 5 ↦ 1} in the two possible orders produce different peak-hour
lists, so the output is not a function of the input alone. -/
theorem c6_counterexample :
    List.Perm [((3:Nat),(1:Nat)),(5,1)] [(5,1),(3,1)] ∧
    getPeakHours [(3,1),(5,1)] ≠ getPeakHours [(5,1),(3,1)] :=
  ⟨by decide, by decide⟩

/-- C6 amended: when all bucket counts are pairwise distinct (no ties),
the peak-hour list is the same for every enumeration order of the same
bucket map, i.e. two runs on identical input agree. -/
theorem c6_amended_distinct_counts_deterministic :
    ∀ l1 l2 : List (Nat × Nat), List.Perm l1 l2 →
      (l1.map (fun p => p.2)).Nodup → getPeakHours l1 = getPeakHours l2 := by
  intro l1 l2 hp hnd
  have hs1 := List.sorted_insertionSort cntGe l1
  have hs2 := List.sorted_insertionSort cntGe l2
  have hperm : List.Perm (List.insertionSort cntGe l1) (List.insertionSort cntGe l2) :=
    ((List.perm_insertionSort cntGe l1).trans hp).trans
      (List.perm_insertionSort cntGe l2).symm
  have hnd1 : ((List.insertionSort cntGe l1).map (fun p => p.2)).Nodup :=
    (((List.perm_insertionSort cntGe l1).map (fun p => p.2)).nodup_iff).mpr hnd
  have heq := sorted_perm_nodup_snd_eq _ _ hs1 hs2 hperm hnd1
  unfold getPeakHours
  rw [heq]

/-- Witness for C6 amended at a concrete input with distinct counts. -/
theorem c6_witness :
    getPeakHours [((3:Nat),(2:Nat)),(5,1)] = getPeakHours [(5,1),(3,2)] :=
  c6_amended_distinct_counts_deterministic _ _ (by decide) (by decide)

/-- C5: the productivity metrics are exactly command variety (distinct
command texts over total commands) and workflow complexity (summed
pattern-match counts over total commands); an empty history produces no
entries (so no division by zero), and the 20-line scenario with five
distinct commands yields a command variety of 1/4. -/
theorem c5_productivity_metrics :
    (∀ entries : List CommandEntry, entries = [] →
      calculateProductivityMetrics entries = []) ∧
    (∀ entries : List CommandEntry, entries ≠ [] →
      (calculateProductivityMetrics entries).lookup "Command Variety" =
        some ((distinctCommandCount entries : ℚ) / (entries.length : ℚ)) ∧
      (calculateProductivityMetrics entries).lookup "Workflow Complexity" =
        some (((patternCount entries matchGitWorkflow + patternCount entries matchBuild +
          patternCount entries matchDeploy + patternCount entries matchTest : ℕ) : ℚ) /
          (entries.length : ℚ)) ∧
      (calculateProductivityMetrics entries).map (fun p => p.1) =
        ["Command Variety", "Workflow Complexity"]) ∧
    (calculateProductivityMetrics (readHistory 0 scenarioLines)).lookup
      "Command Variety" = some (1/4 : ℚ) := by
  refine ⟨?_, ?_, ?_⟩
  · intro entries h
    subst h
    rfl
  · intro entries h
    have h0 : ¬ entries.length = 0 := by
      simpa [List.length_eq_zero] using h
    unfold calculateProductivityMetrics
    rw [if_neg h0]
    refine ⟨?_, ?_, ?_⟩
    · simp [List.lookup]
    · simp [List.lookup]
    · simp
  · rw [calculateProductivityMetrics]
    rw [show (readHistory 0 scenarioLines).length = 20 from by decide]
    rw [show distinctCommandCount (readHistory 0 scenarioLines) = 5 from by decide]
    norm_num [List.lookup]

/-- Witness for C5's guarded conjuncts at concrete inputs. -/
theorem c5_witness :
    calculateProductivityMetrics [] = [] ∧
    (calculateProductivityMetrics [(⟨"ls", 0, ["file"]⟩ : CommandEntry)]).map
      (fun p => p.1) = ["Command Variety", "Workflow Complexity"] :=
  ⟨c5_productivity_metrics.1 [] rfl,
   (c5_productivity_metrics.2.1 [(⟨"ls", 0, ["file"]⟩ : CommandEntry)]
     (by decide)).2.2⟩

/-- C7: a config line `alias ll='ls -la'` parses to the alias entry
`ll ↦ ls -la` with the quotes stripped, and for every sequence of lines
the final alias map answers each name with the LAST parsed declaration
for it (falling back to the incoming map). -/
theorem c7_alias_parsing :
    (∀ m0 : String → Option String,
      parseShellConfig ["alias ll='ls -la'"] m0 "ll" = some "ls -la") ∧
    (∀ (lines : List String) (m0 : String → Option String) (k : String),
      parseShellConfig lines m0 k =
        (lastVal (lines.filterMap parseAliasLine) k).or (m0 k)) := by
  constructor
  · intro m0
    rw [parseShellConfig_lastVal]
    rw [show lastVal (["alias ll='ls -la'"].filterMap parseAliasLine) "ll" =
      some "ls -la" from by decide]
    rfl
  · exact parseShellConfig_lastVal

theorem categorizeCommand_eq (cmd : String) :
    categorizeCommand cmd =
      (if devPatterns.any (fun p => strStartsWith cmd p) then ["development"] else []) ++
      (if sysPatterns.any (fun p => strStartsWith cmd p) then ["system"] else []) ++
      (if filePatterns.any (fun p => strStartsWith cmd p) then ["file"] else []) := by
  unfold categorizeCommand catPatterns
  cases h1 : devPatterns.any (fun p => strStartsWith cmd p) <;>
    cases h2 : sysPatterns.any (fun p => strStartsWith cmd p) <;>
      cases h3 : filePatterns.any (fun p => strStartsWith cmd p) <;>
        simp [List.filter, h1, h2, h3]

/-- C8: categorization evaluates every category's prefix rules
independently and returns the union — membership of each of the three
tags is equivalent to its own prefix test, never cut short by another
category matching, and no other tag is ever produced. -/
theorem c8_categorization_union :
    ∀ cmd : String,
      ("development" ∈ categorizeCommand cmd ↔
        devPatterns.any (fun p => strStartsWith cmd p) = true) ∧
      ("system" ∈ categorizeCommand cmd ↔
        sysPatterns.any (fun p => strStartsWith cmd p) = true) ∧
      ("file" ∈ categorizeCommand cmd ↔
        filePatterns.any (fun p => strStartsWith cmd p) = true) ∧
      (∀ c ∈ categorizeCommand cmd, c = "development" ∨ c = "system" ∨ c = "file") := by
  intro cmd
  rw [categorizeCommand_eq]
  cases h1 : devPatterns.any (fun p => strStartsWith cmd p) <;>
    cases h2 : sysPatterns.any (fun p => strStartsWith cmd p) <;>
      cases h3 : filePatterns.any (fun p => strStartsWith cmd p) <;>
        decide

/-- Witness for C8: `git status` is tagged `development`. -/
theorem c8_witness : "development" ∈ categorizeCommand "git status" :=
  (c8_categorization_union "git status").1.mpr (by decide)

/-- C9 counterexample: when the home directory cannot be resolved the
claim expects an aborted run with a diagnostic; instead `expandPath`
returns the tilde path unchanged and the analysis completes normally,
returning an ordinary (empty) result with every shell silently skipped. -/
theorem c9_counterexample :
    expandPath none "~/.bash_history" = "~/.bash_history" ∧
    analyzeShellsHistories 0 none (fun _ => none) = [] :=
  ⟨by decide, rfl⟩

/-- C9 amended: home-directory resolution failure is NOT fatal and
produces no diagnostic — `expandPath` degrades to the identity, the
analysis then looks the un-expanded tilde paths up in the filesystem, and
on a filesystem without such literal paths it completes with an empty
history set. -/
theorem c9_amended_no_abort :
    (∀ p : String, expandPath none p = p) ∧
    (∀ (now : Nat) (fs : String → Option (List String)),
      analyzeShellsHistories now none fs =
        shellPaths.filterMap (fun sp =>
          match fs sp.2 with
          | some lines => some (sp.1, readHistory now lines)
          | none => none)) ∧
    (∀ (now : Nat) (fs : String → Option (List String)),
      (∀ q, fs q = none) → analyzeShellsHistories now none fs = []) := by
  have h1 : ∀ p : String, expandPath none p = p := by
    intro p
    unfold expandPath
    split <;> rfl
  have h2 : ∀ (now : Nat) (fs : String → Option (List String)),
      analyzeShellsHistories now none fs =
        shellPaths.filterMap (fun sp =>
          match fs sp.2 with
          | some lines => some (sp.1, readHistory now lines)
          | none => none) := by
    intro now fs
    unfold analyzeShellsHistories
    congr 1
    funext sp
    rw [h1 sp.2]
  refine ⟨h1, h2, ?_⟩
  intro now fs hfs
  rw [h2]
  simp [shellPaths, hfs]

/-- Witness for C9 amended on the empty filesystem. -/
theorem c9_witness : analyzeShellsHistories 1 none (fun _ => none) = [] :=
  c9_amended_no_abort.2.2 1 (fun _ => none) (fun _ => rfl)

/-- C10: every stored command entry has a non-empty command containing no
whitespace, and consequently consists of exactly one whitespace token
(its own fields list is just itself). -/
theorem c10_commands_single_token :
    ∀ (now : Nat) (lines : List String) (e : CommandEntry),
      e ∈ readHistory now lines →
      e.command ≠ "" ∧ (∀ c ∈ e.command.toList, goIsSpace c = false) ∧
      fields e.command = [e.command] := by
  intro now lines e he
  simp only [readHistory, List.mem_filterMap] at he
  obtain ⟨line, _, hline⟩ := he
  by_cases h : cleanHistoryLine line = ""
  · simp [h] at hline
  · rw [if_neg h] at hline
    have he2 : (⟨cleanHistoryLine line, now,
        categorizeCommand (cleanHistoryLine line)⟩ : CommandEntry) = e :=
      Option.some_inj.mp hline
    subst he2
    rcases cleanHistoryLine_cases line with hc | hc
    · exact absurd hc h
    · exact ⟨hc.1, hc.2, fields_single _ hc.1 hc.2⟩

/-- Witness for C10 on the history line `git status`: the stored command
is the non-empty last token `status`. -/
theorem c10_witness :
    ((⟨"status", 0, []⟩ : CommandEntry)).command ≠ "" :=
  (c10_commands_single_token 0 ["git status"] ⟨"status", 0, []⟩ (by decide)).1
